import Mathlib

/-!
Shallow embedding of the policy-lru repository (package policylru): a
generic, policy-driven LRU cache backed by a doubly linked list
(container/list) ordered most-recently-touched first, and a map from key
to list element.

Modelling choices, each justified against the Go source:

* The exported fields Policy and Handler are modelled by an optional pure
  policy function and a Bool saying whether a handler is configured.
  Handler invocations are modelled as an event trace returned by each
  operation: the trace holds exactly the calls a configured handler
  receives, in call order; with no handler configured the trace is empty,
  matching the nil checks in the source.
* The unexported fields ll and cache are nil at exactly the same time in
  every reachable state: New and NewWithHandler allocate both, Add
  materializes both together when cache is nil, and Clear sets both to
  nil.  The model therefore couples them in one Option: none models the
  unmaterialized state, some gives the list (front first) and the map''s
  key set.  A map value (a pointer to a list element) is recovered as the
  unique entry of ll holding that key, which is justified by the 1:1
  index/list correspondence invariant proved below.
* Evict called with a configured policy while ll is nil dereferences a
  nil pointer in Go (list.List.Back on a nil receiver); evict therefore
  returns an Option, with none modelling the panic.
* Go map iteration order in Clear is unspecified; the model iterates the
  key list in its own order and only permutation-invariant facts are
  claimed about Clear''s removal events.
* The eviction loop removes one element per iteration, so it runs at most
  ll.Len() iterations; the model makes this bound explicit as structural
  fuel, passed as the list length at both call sites.
-/

namespace PolicyLRU

/-- A call a configured Handler receives: Added(k, old, new, update) after
an element is added or updated, Removed(k, v) after an element is removed
(by policy eviction, by Remove, or by Clear). -/
inductive Event (K V : Type) where
  | added (k : K) (old new : V) (update : Bool)
  | removed (k : K) (v : V)
  deriving DecidableEq, Repr

/-- Result of one eviction sweep: n is the number of elements removed,
ll and cache are the updated list and key set, events the Removed
notifications fired, in order. -/
structure SweepResult (K V : Type) where
  n : Nat
  ll : List (K × V)
  cache : List K
  events : List (Event K V)

/-- The Cache struct.  policy and handler model the exported Policy and
Handler fields; st couples the unexported ll and cache fields, which are
nil exactly together in every reachable state (none = both nil). -/
structure Cache (K V : Type) where
  policy : Option (K → V → Nat → Bool)
  handler : Bool
  st : Option (List (K × V) × List K)

variable {K V : Type}

/-- Key equality test on an entry, as a Bool predicate. -/
def keyEq [DecidableEq K] (k : K) : K × V → Bool := fun e => decide (e.1 = k)

/-- The list entry a map lookup cache[k] resolves to: the unique entry of
ll holding key k (unique by the correspondence invariant). -/
def lookupEntry [DecidableEq K] (ll : List (K × V)) (k : K) : Option (K × V) :=
  ll.find? (keyEq k)

/-- Detaching key k''s entry from the list (the effect of ll.Remove or of
MoveToFront''s detach step on that entry). -/
def eraseEntry [DecidableEq K] (ll : List (K × V)) (k : K) : List (K × V) :=
  ll.eraseP (keyEq k)

/-- Position of key k''s entry in the list: the model''s rendering of the
element pointer stored in the map. -/
def entryIdx [DecidableEq K] (ll : List (K × V)) (k : K) : Nat :=
  ll.findIdx (keyEq k)

/-- Cache.removeElement: remove the element at position i from the list,
delete its key from the map, and fire Removed(k, v) if a handler is
configured.  The element''s key and value are read from the entry, as the
source reads ele.Value. -/
def removeElement [DecidableEq K] (h : Bool) (ll : List (K × V)) (m : List K) (i : Nat) :
    List (K × V) × List K × List (Event K V) :=
  match ll[i]? with
  | some e => (ll.eraseIdx i, m.erase e.1, if h then [Event.removed e.1 e.2] else [])
  | none => (ll, m, [])

/-- The loop body of Cache.Evict: repeatedly inspect the back-most entry
ll.Back(); if the policy approves eviction at the current size ll.Len(),
remove it via removeElement and continue with the new back; stop when the
policy declines or the list is empty.  fuel bounds the iteration count;
both call sites pass the list length, which is exact since every
iteration removes one element. -/
def evictLoop [DecidableEq K] (p : K → V → Nat → Bool) (h : Bool) :
    Nat → List (K × V) → List K → SweepResult K V
  | 0, ll, m => ⟨0, ll, m, []⟩
  | fuel + 1, ll, m =>
    match ll.getLast? with
    | none => ⟨0, ll, m, []⟩
    | some e =>
      if p e.1 e.2 ll.length then
        let r := removeElement h ll m (ll.length - 1)
        let rest := evictLoop p h fuel r.1 r.2.1
        ⟨rest.n + 1, rest.ll, rest.cache, r.2.2 ++ rest.events⟩
      else ⟨0, ll, m, []⟩

/-- Cache.Evict.  Returns none when the Go code panics: with a configured
policy but nil internal structures, c.ll.Back() dereferences a nil
pointer.  With no policy it returns 0 at once; otherwise it runs the
sweep and returns the number of elements removed. -/
def Cache.evict [DecidableEq K] (c : Cache K V) :
    Option (Nat × Cache K V × List (Event K V)) :=
  match c.policy with
  | none => some (0, c, [])
  | some p =>
    match c.st with
    | none => none
    | some (ll, m) =>
      let r := evictLoop p c.handler ll.length ll m
      some (r.n, { c with st := some (r.ll, r.cache) }, r.events)

/-- Cache.Add.  Materializes nil internals; on a hit moves the entry to
the front, overwrites its value and fires Added(k, old, v, true); on a
miss pushes a fresh entry to the front, records it in the map, fires
Added(k, zero, v, false) and then runs the eviction sweep.  Only the
insert branch reaches the Evict call: the update branch returns first. -/
def Cache.add [DecidableEq K] [Inhabited V] (c : Cache K V) (k : K) (v : V) :
    Cache K V × List (Event K V) :=
  let s := c.st.getD ([], [])
  if k ∈ s.2 then
    let e := (lookupEntry s.1 k).getD (k, default)
    ({ c with st := some ((k, v) :: eraseEntry s.1 k, s.2) },
     if c.handler then [Event.added k e.2 v true] else [])
  else
    let ll := (k, v) :: s.1
    let m := k :: s.2
    let r := match c.policy with
      | none => (⟨0, ll, m, []⟩ : SweepResult K V)
      | some p => evictLoop p c.handler ll.length ll m
    ({ c with st := some (r.ll, r.cache) },
     (if c.handler then [Event.added k default v false] else []) ++ r.events)

/-- Cache.Get.  On a hit moves the entry to the front and returns its
value with hit true; on a miss (including nil internals, where the map
lookup on a nil map misses) returns the zero value and hit false without
mutating anything. -/
def Cache.get [DecidableEq K] [Inhabited V] (c : Cache K V) (k : K) :
    V × Bool × Cache K V :=
  match c.st with
  | none => (default, false, c)
  | some (ll, m) =>
    if k ∈ m then
      let e := (lookupEntry ll k).getD (k, default)
      (e.2, true, { c with st := some (e :: eraseEntry ll k, m) })
    else (default, false, c)

/-- Cache.Remove.  On a hit removes the element the map resolves k to via
removeElement and returns true; on a miss returns false and changes
nothing. -/
def Cache.remove [DecidableEq K] (c : Cache K V) (k : K) :
    Bool × Cache K V × List (Event K V) :=
  match c.st with
  | none => (false, c, [])
  | some (ll, m) =>
    if k ∈ m then
      let r := removeElement c.handler ll m (entryIdx ll k)
      (true, { c with st := some (r.1, r.2.1) }, r.2.2)
    else (false, c, [])

/-- Cache.Len: 0 when the map is nil, else ll.Len(). -/
def Cache.len : Cache K V → Nat
  | ⟨_, _, none⟩ => 0
  | ⟨_, _, some (ll, _)⟩ => ll.length

/-- Cache.Clear: saves the map, sets both internals to nil, then fires
Removed(e.key, e.value) for each saved element if a handler is
configured.  Go map iteration order is unspecified; the model iterates
the key list in its own order, and only permutation-invariant facts are
claimed about the events. -/
def Cache.clear [DecidableEq K] [Inhabited V] (c : Cache K V) :
    Cache K V × List (Event K V) :=
  match c.st with
  | none => ({ c with st := none }, [])
  | some (ll, m) =>
    ({ c with st := none },
     if c.handler then
       m.map (fun k =>
         let e := (lookupEntry ll k).getD (k, default)
         Event.removed e.1 e.2)
     else [])

/-- NewWithHandler: allocates empty internals. -/
def newWithHandler (policy : Option (K → V → Nat → Bool)) (handler : Bool) :
    Cache K V :=
  ⟨policy, handler, some ([], [])⟩

/-- New: NewWithHandler with a nil handler. -/
def new (policy : Option (K → V → Nat → Bool)) : Cache K V :=
  newWithHandler policy false

/-- The builtin MaxCount policy: evict while the current count exceeds
the configured bound. -/
def maxCount (bound : Int) : K → V → Nat → Bool := fun _ _ count => bound < (count : Int)

/-- Observable: the entries of the ordering structure, front first
(empty when internals are nil). -/
def Cache.entries : Cache K V → List (K × V)
  | ⟨_, _, none⟩ => []
  | ⟨_, _, some (ll, _)⟩ => ll

/-- Observable: the keys of the ordering structure, front first. -/
def Cache.keys (c : Cache K V) : List K := c.entries.map Prod.fst

/-- Observable: the keys present in the index map. -/
def Cache.indexKeys : Cache K V → List K
  | ⟨_, _, none⟩ => []
  | ⟨_, _, some (_, m)⟩ => m

/-- Observable: the value stored for k, if any. -/
def Cache.valueOf [DecidableEq K] (c : Cache K V) (k : K) : Option V :=
  (lookupEntry c.entries k).map Prod.snd

/-- The index/ordering correspondence invariant: index keys and list keys
agree up to permutation and the index holds no key twice. -/
def Inv (c : Cache K V) : Prop := c.keys.Perm c.indexKeys ∧ c.indexKeys.Nodup

instance [DecidableEq K] (c : Cache K V) : Decidable (Inv c) := by
  unfold Inv
  infer_instance

/-- States reachable through the public API.  Policy and Handler are
exported fields, so any state may have them rewritten at any time; the
zero value of the struct (both internals nil) is also a legal start. -/
inductive Reachable [DecidableEq K] [Inhabited V] : Cache K V → Prop where
  | zero (p : Option (K → V → Nat → Bool)) (h : Bool) : Reachable ⟨p, h, none⟩
  | mk (p : Option (K → V → Nat → Bool)) (h : Bool) : Reachable (newWithHandler p h)
  | add {c : Cache K V} (k : K) (v : V) : Reachable c → Reachable (c.add k v).1
  | get {c : Cache K V} (k : K) : Reachable c → Reachable (c.get k).2.2
  | remove {c : Cache K V} (k : K) : Reachable c → Reachable (c.remove k).2.1
  | evict {c c' : Cache K V} {n : Nat} {evs : List (Event K V)} :
      Reachable c → c.evict = some (n, c', evs) → Reachable c'
  | clear {c : Cache K V} : Reachable c → Reachable (c.clear).1
  | setPolicy {c : Cache K V} (p : Option (K → V → Nat → Bool)) :
      Reachable c → Reachable { c with policy := p }
  | setHandler {c : Cache K V} (h : Bool) :
      Reachable c → Reachable { c with handler := h }

/-! Helper lemmas about the list primitives. -/

theorem map_fst_eraseEntry [DecidableEq K] (ll : List (K × V)) (k : K) :
    (eraseEntry ll k).map Prod.fst = (ll.map Prod.fst).erase k := by
  induction ll with
  | nil => rfl
  | cons e t ih =>
    by_cases h : e.1 = k
    · simp [eraseEntry, keyEq, List.eraseP_cons, h, List.erase_cons]
    · simpa [eraseEntry, keyEq, List.eraseP_cons, h, List.erase_cons] using ih

theorem lookupEntry_key [DecidableEq K] {ll : List (K × V)} {k : K} {e : K × V}
    (h : lookupEntry ll k = some e) : e.1 = k := by
  have := List.find?_some h
  simpa [keyEq] using this

theorem lookupEntry_getD_key [DecidableEq K] (ll : List (K × V)) (k : K) (d : V) :
    ((lookupEntry ll k).getD (k, d)).1 = k := by
  cases h : lookupEntry ll k with
  | none => rfl
  | some e => simpa using lookupEntry_key h

theorem lookupEntry_isSome [DecidableEq K] (ll : List (K × V)) (k : K) :
    (lookupEntry ll k).isSome ↔ k ∈ ll.map Prod.fst := by
  simp only [lookupEntry, List.find?_isSome, keyEq, List.mem_map, decide_eq_true_eq]

theorem lookupEntry_mem [DecidableEq K] {ll : List (K × V)} {k : K} {e : K × V}
    (h : lookupEntry ll k = some e) : e ∈ ll :=
  List.mem_of_find?_eq_some h

theorem perm_lookup_cons_eraseEntry [DecidableEq K] {ll : List (K × V)} {k : K}
    {e : K × V} (h : lookupEntry ll k = some e) : ll.Perm (e :: eraseEntry ll k) := by
  induction ll with
  | nil => simp [lookupEntry] at h
  | cons x t ih =>
    by_cases hx : keyEq (V := V) k x = true
    · rw [lookupEntry, List.find?_cons_of_pos _ hx] at h
      cases h
      simp [eraseEntry, List.eraseP_cons, hx]
    · rw [lookupEntry, List.find?_cons_of_neg _ hx] at h
      have ht := ih h
      have : (x :: t).Perm (x :: e :: eraseEntry t k) := ht.cons x
      refine this.trans ?_
      simpa [eraseEntry, List.eraseP_cons, hx] using List.Perm.swap e x (eraseEntry t k)

theorem getElem?_entryIdx [DecidableEq K] (ll : List (K × V)) (k : K) :
    ll[entryIdx ll k]? = lookupEntry ll k := by
  induction ll with
  | nil => rfl
  | cons x t ih =>
    by_cases hx : keyEq (V := V) k x = true
    · simp [entryIdx, List.findIdx_cons, hx, lookupEntry, List.find?_cons_of_pos _ hx]
    · rw [lookupEntry, List.find?_cons_of_neg _ hx]
      have hxb : keyEq (V := V) k x = false := by
        cases hkk : keyEq (V := V) k x
        · rfl
        · exact absurd hkk hx
      simp only [entryIdx, List.findIdx_cons, hxb, cond_false, List.getElem?_cons_succ]
      exact ih

theorem eraseIdx_entryIdx [DecidableEq K] (ll : List (K × V)) (k : K) :
    ll.eraseIdx (entryIdx ll k) = eraseEntry ll k := by
  induction ll with
  | nil => rfl
  | cons x t ih =>
    by_cases hx : keyEq (V := V) k x = true
    · simp [entryIdx, List.findIdx_cons, hx, eraseEntry, List.eraseP_cons]
    · have hxb : keyEq (V := V) k x = false := by
        cases hkk : keyEq (V := V) k x
        · rfl
        · exact absurd hkk hx
      simp only [entryIdx, List.findIdx_cons, hxb, cond_false, List.eraseIdx_cons_succ,
        eraseEntry, List.eraseP_cons]
      exact congrArg (List.cons x) ih

theorem eraseIdx_last {α : Type} (l : List α) : l.eraseIdx (l.length - 1) = l.dropLast := by
  induction l with
  | nil => rfl
  | cons x t ih =>
    cases t with
    | nil => rfl
    | cons y s =>
      have hlen : (x :: y :: s).length - 1 = (y :: s).length - 1 + 1 := by
        simp [List.length_cons]
      rw [hlen, List.eraseIdx_cons_succ, List.dropLast_cons₂, ih]

theorem getLast?_decomp {α : Type} {l : List α} {e : α} (h : l.getLast? = some e) :
    l = l.dropLast ++ [e] := by
  have hne : l ≠ [] := by
    intro hnil
    rw [hnil] at h
    simp at h
  have := List.getLast?_eq_getLast l hne
  rw [this] at h
  have he : l.getLast hne = e := by injection h
  rw [← he]
  exact (List.dropLast_concat_getLast hne).symm

theorem removeElement_last [DecidableEq K] (h : Bool) {ll : List (K × V)} (m : List K)
    {e : K × V} (he : ll.getLast? = some e) :
    removeElement h ll m (ll.length - 1) =
      (ll.dropLast, m.erase e.1, if h then [Event.removed e.1 e.2] else []) := by
  have hge : ll[ll.length - 1]? = some e := by
    rw [← List.getLast?_eq_getElem?]
    exact he
  unfold removeElement
  rw [hge]
  simp [eraseIdx_last]

/-! Characterization of the eviction sweep. -/

theorem evictLoop_stopped [DecidableEq K] {p : K → V → Nat → Bool} {h : Bool}
    {fuel : Nat} {ll : List (K × V)} {m : List K}
    (hst : ll = [] ∨ ∃ e, ll.getLast? = some e ∧ p e.1 e.2 ll.length = false) :
    evictLoop p h fuel ll m = ⟨0, ll, m, []⟩ := by
  cases fuel with
  | zero => rfl
  | succ fuel =>
    rcases hst with hnil | ⟨e, he, hpe⟩
    · subst hnil
      rfl
    · simp [evictLoop, he, hpe]

theorem evictLoop_spec [DecidableEq K] (p : K → V → Nat → Bool) (h : Bool) :
    ∀ (fuel : Nat) (ll : List (K × V)) (m : List K), ll.length ≤ fuel →
    ∃ s : List (K × V),
      ll = (evictLoop p h fuel ll m).ll ++ s ∧
      (evictLoop p h fuel ll m).n = s.length ∧
      (evictLoop p h fuel ll m).cache = s.foldr (fun e mm => mm.erase e.1) m ∧
      (evictLoop p h fuel ll m).events =
        (if h then s.reverse.map (fun e => Event.removed e.1 e.2) else []) ∧
      (∀ j, (hj : j < s.length) →
        p s[j].1 s[j].2 ((evictLoop p h fuel ll m).ll.length + j + 1) = true) ∧
      ((evictLoop p h fuel ll m).ll = [] ∨
        ∃ e, (evictLoop p h fuel ll m).ll.getLast? = some e ∧
          p e.1 e.2 (evictLoop p h fuel ll m).ll.length = false) := by
  intro fuel
  induction fuel with
  | zero =>
    intro ll m hle
    have hnil : ll = [] := List.eq_nil_of_length_eq_zero (Nat.le_zero.mp hle)
    subst hnil
    exact ⟨[], by simp [evictLoop]⟩
  | succ fuel ih =>
    intro ll m hle
    cases hl : ll.getLast? with
    | none =>
      have hnil : ll = [] := List.getLast?_eq_none_iff.mp hl
      subst hnil
      exact ⟨[], by simp [evictLoop]⟩
    | some e =>
      by_cases hp : p e.1 e.2 ll.length = true
      · have hdec : ll = ll.dropLast ++ [e] := getLast?_decomp hl
        have hlen : ll.length = ll.dropLast.length + 1 := by
          conv_lhs => rw [hdec]
          simp
        have hfuel : ll.dropLast.length ≤ fuel := by omega
        obtain ⟨s, h1, h2, h3, h4, h5, h6⟩ := ih ll.dropLast (m.erase e.1) hfuel
        have heval : evictLoop p h (fuel + 1) ll m =
            ⟨(evictLoop p h fuel ll.dropLast (m.erase e.1)).n + 1,
             (evictLoop p h fuel ll.dropLast (m.erase e.1)).ll,
             (evictLoop p h fuel ll.dropLast (m.erase e.1)).cache,
             (if h then [Event.removed e.1 e.2] else []) ++
               (evictLoop p h fuel ll.dropLast (m.erase e.1)).events⟩ := by
          simp only [evictLoop, hl, hp, if_true, removeElement_last h m hl]
        refine ⟨s ++ [e], ?_, ?_, ?_, ?_, ?_, ?_⟩
        · rw [heval]
          calc ll = ll.dropLast ++ [e] := hdec
            _ = ((evictLoop p h fuel ll.dropLast (m.erase e.1)).ll ++ s) ++ [e] := by
                rw [← h1]
            _ = (evictLoop p h fuel ll.dropLast (m.erase e.1)).ll ++ (s ++ [e]) := by
                rw [List.append_assoc]
        · rw [heval]
          simp [h2]
        · rw [heval]
          simp only [List.foldr_append, List.foldr_cons, List.foldr_nil]
          exact h3
        · rw [heval, h4]
          cases h
          · simp
          · simp
        · intro j hj
          rw [heval]
          simp only
          rcases Nat.lt_or_ge j s.length with hlt | hge
          · have hget : (s ++ [e])[j] = s[j] := List.getElem_append_left hlt
            rw [hget]
            exact h5 j hlt
          · have hjs : j = s.length := by
              have := List.length_append s [e] ▸ hj
              simp at this
              omega
            have hget : (s ++ [e])[j] = e := List.getElem_concat_length s e j hjs _
            rw [hget]
            have hlen2 : ll.dropLast.length =
                (evictLoop p h fuel ll.dropLast (m.erase e.1)).ll.length + s.length := by
              have := congrArg List.length h1
              simpa using this
            have hsz : (evictLoop p h fuel ll.dropLast (m.erase e.1)).ll.length + j + 1 =
                ll.length := by
              omega
            rw [hsz]
            exact hp
        · rw [heval]
          exact h6
      · have hpe : p e.1 e.2 ll.length = false := by
          cases hb : p e.1 e.2 ll.length
          · rfl
          · exact absurd hb hp
        have heval : evictLoop p h (fuel + 1) ll m = ⟨0, ll, m, []⟩ :=
          evictLoop_stopped (Or.inr ⟨e, hl, hpe⟩)
        refine ⟨[], ?_, ?_, ?_, ?_, ?_, ?_⟩
        · rw [heval]
          simp
        · rw [heval]
          rfl
        · rw [heval]
          rfl
        · rw [heval]
          simp
        · intro j hj
          exact absurd hj (Nat.not_lt_zero j)
        · rw [heval]
          exact Or.inr ⟨e, hl, hpe⟩

theorem evictLoop_inv [DecidableEq K] (p : K → V → Nat → Bool) (h : Bool) :
    ∀ (fuel : Nat) (ll : List (K × V)) (m : List K),
    (ll.map Prod.fst).Perm m → m.Nodup →
    ((evictLoop p h fuel ll m).ll.map Prod.fst).Perm (evictLoop p h fuel ll m).cache ∧
      (evictLoop p h fuel ll m).cache.Nodup := by
  intro fuel
  induction fuel with
  | zero =>
    intro ll m hperm hnd
    exact ⟨hperm, hnd⟩
  | succ fuel ih =>
    intro ll m hperm hnd
    cases hl : ll.getLast? with
    | none =>
      simp only [evictLoop, hl]
      exact ⟨hperm, hnd⟩
    | some e =>
      by_cases hp : p e.1 e.2 ll.length = true
      · have hdec : ll = ll.dropLast ++ [e] := getLast?_decomp hl
        have hkeys : ll.map Prod.fst = ll.dropLast.map Prod.fst ++ [e.1] := by
          conv_lhs => rw [hdec]
          simp
        have hndk : (ll.map Prod.fst).Nodup := (hperm.nodup_iff).mpr hnd
        have hnotmem : e.1 ∉ ll.dropLast.map Prod.fst := by
          rw [hkeys] at hndk
          have := List.disjoint_of_nodup_append hndk
          intro hmem
          exact this hmem (List.mem_singleton_self e.1)
        have hperm' : (ll.dropLast.map Prod.fst).Perm (m.erase e.1) := by
          have h1 : (m.erase e.1).Perm ((ll.map Prod.fst).erase e.1) :=
            (hperm.symm).erase e.1
          have h2 : (ll.map Prod.fst).erase e.1 = ll.dropLast.map Prod.fst := by
            rw [hkeys, List.erase_append_right _ hnotmem, List.erase_cons_head,
              List.append_nil]
          rw [h2] at h1
          exact h1.symm
        have hnd' : (m.erase e.1).Nodup := hnd.erase e.1
        have := ih ll.dropLast (m.erase e.1) hperm' hnd'
        simpa only [evictLoop, hl, hp, if_true, removeElement_last h m hl] using this
      · have hpe : p e.1 e.2 ll.length = false := by
          cases hb : p e.1 e.2 ll.length
          · rfl
          · exact absurd hb hp
        simp only [evictLoop, hl, hpe, if_false, Bool.false_eq_true]
        exact ⟨hperm, hnd⟩

/-! Preservation of the index/ordering correspondence invariant. -/

theorem inv_mk_some {pol : Option (K → V → Nat → Bool)} {hb : Bool}
    {ll : List (K × V)} {m : List K} :
    Inv (⟨pol, hb, some (ll, m)⟩ : Cache K V) ↔ (ll.map Prod.fst).Perm m ∧ m.Nodup :=
  Iff.rfl

theorem inv_mk_none {pol : Option (K → V → Nat → Bool)} {hb : Bool} :
    Inv (⟨pol, hb, none⟩ : Cache K V) :=
  ⟨List.Perm.refl _, List.nodup_nil⟩

theorem inv_same_st {c : Cache K V} (p : Option (K → V → Nat → Bool)) (hb : Bool)
    (hc : Inv c) : Inv (⟨p, hb, c.st⟩ : Cache K V) := by
  obtain ⟨pol, hb0, st⟩ := c
  cases st with
  | none => exact inv_mk_none
  | some s =>
    obtain ⟨ll, m⟩ := s
    exact inv_mk_some.mpr (inv_mk_some.mp hc)

theorem inv_add [DecidableEq K] [Inhabited V] {c : Cache K V} (k : K) (v : V)
    (hc : Inv c) : Inv (c.add k v).1 := by
  obtain ⟨pol, hb, st⟩ := c
  have main : ∀ (ll : List (K × V)) (m : List K), (ll.map Prod.fst).Perm m → m.Nodup →
      Inv ((⟨pol, hb, some (ll, m)⟩ : Cache K V).add k v).1 := by
    intro ll m hperm hnd
    by_cases hk : k ∈ m
    · simp only [Cache.add, Option.getD_some, hk, if_true]
      refine inv_mk_some.mpr ⟨?_, hnd⟩
      have hkll : k ∈ ll.map Prod.fst := hperm.mem_iff.mpr hk
      have : ((k, v) :: eraseEntry ll k).map Prod.fst =
          k :: (ll.map Prod.fst).erase k := by
        simp [map_fst_eraseEntry]
      rw [this]
      exact ((List.perm_cons_erase hkll).symm).trans hperm
    · have hbase1 : (((k, v) :: ll).map Prod.fst).Perm (k :: m) := by
        simpa using hperm.cons k
      have hbase2 : (k :: m).Nodup := List.nodup_cons.mpr ⟨hk, hnd⟩
      cases pol with
      | none =>
        simp only [Cache.add, Option.getD_some, hk, if_false]
        exact inv_mk_some.mpr ⟨hbase1, hbase2⟩
      | some p =>
        simp only [Cache.add, Option.getD_some, hk, if_false]
        exact inv_mk_some.mpr
          (evictLoop_inv p hb ((k, v) :: ll).length ((k, v) :: ll) (k :: m) hbase1 hbase2)
  cases st with
  | none =>
    have h0 : ((⟨pol, hb, none⟩ : Cache K V).add k v) =
        ((⟨pol, hb, some ([], [])⟩ : Cache K V).add k v) := rfl
    rw [h0]
    exact main [] [] (List.Perm.refl _) List.nodup_nil
  | some s =>
    obtain ⟨ll, m⟩ := s
    exact main ll m (inv_mk_some.mp hc).1 (inv_mk_some.mp hc).2

theorem inv_get [DecidableEq K] [Inhabited V] {c : Cache K V} (k : K) (hc : Inv c) :
    Inv (c.get k).2.2 := by
  obtain ⟨pol, hb, st⟩ := c
  cases st with
  | none => exact inv_mk_none
  | some s =>
    obtain ⟨ll, m⟩ := s
    obtain ⟨hperm, hnd⟩ := inv_mk_some.mp hc
    by_cases hk : k ∈ m
    · simp only [Cache.get, hk, if_true]
      refine inv_mk_some.mpr ⟨?_, hnd⟩
      have hkll : k ∈ ll.map Prod.fst := hperm.mem_iff.mpr hk
      have hfst : (((lookupEntry ll k).getD (k, default)) :: eraseEntry ll k).map Prod.fst =
          k :: (ll.map Prod.fst).erase k := by
        simp [map_fst_eraseEntry, lookupEntry_getD_key]
      rw [hfst]
      exact ((List.perm_cons_erase hkll).symm).trans hperm
    · simp only [Cache.get, hk, if_false]
      exact inv_mk_some.mpr ⟨hperm, hnd⟩

theorem inv_remove [DecidableEq K] {c : Cache K V} (k : K) (hc : Inv c) :
    Inv (c.remove k).2.1 := by
  obtain ⟨pol, hb, st⟩ := c
  cases st with
  | none => exact inv_mk_none
  | some s =>
    obtain ⟨ll, m⟩ := s
    obtain ⟨hperm, hnd⟩ := inv_mk_some.mp hc
    by_cases hk : k ∈ m
    · have hkll : k ∈ ll.map Prod.fst := hperm.mem_iff.mpr hk
      obtain ⟨e, he⟩ := Option.isSome_iff_exists.mp ((lookupEntry_isSome ll k).mpr hkll)
      have hek : e.1 = k := lookupEntry_key he
      have hre : removeElement hb ll m (entryIdx ll k) =
          (eraseEntry ll k, m.erase k,
            if hb then [Event.removed k e.2] else []) := by
        rw [removeElement, getElem?_entryIdx, he]
        simp [eraseIdx_entryIdx, hek]
      simp only [Cache.remove, hk, if_true, hre]
      refine inv_mk_some.mpr ⟨?_, hnd.erase k⟩
      rw [map_fst_eraseEntry]
      exact hperm.erase k
    · simp only [Cache.remove, hk, if_false]
      exact inv_mk_some.mpr ⟨hperm, hnd⟩

theorem inv_evict [DecidableEq K] {c c' : Cache K V} {n : Nat} {evs : List (Event K V)}
    (hc : Inv c) (he : c.evict = some (n, c', evs)) : Inv c' := by
  obtain ⟨pol, hb, st⟩ := c
  cases pol with
  | none =>
    simp only [Cache.evict, Option.some.injEq, Prod.mk.injEq] at he
    obtain ⟨-, h2, -⟩ := he
    rw [← h2]
    exact hc
  | some p =>
    cases st with
    | none =>
      simp only [Cache.evict] at he
      exact absurd he (by simp)
    | some s =>
      obtain ⟨ll, m⟩ := s
      obtain ⟨hperm, hnd⟩ := inv_mk_some.mp hc
      simp only [Cache.evict, Option.some.injEq, Prod.mk.injEq] at he
      obtain ⟨-, h2, -⟩ := he
      rw [← h2]
      exact inv_mk_some.mpr (evictLoop_inv p hb ll.length ll m hperm hnd)

theorem inv_clear [DecidableEq K] [Inhabited V] (c : Cache K V) : Inv (c.clear).1 := by
  obtain ⟨pol, hb, st⟩ := c
  cases st with
  | none => exact inv_mk_none
  | some s =>
    obtain ⟨ll, m⟩ := s
    exact inv_mk_none

theorem reachable_inv [DecidableEq K] [Inhabited V] {c : Cache K V}
    (hr : Reachable c) : Inv c := by
  induction hr with
  | zero p h => exact inv_mk_none
  | mk p h => exact ⟨List.Perm.refl _, List.nodup_nil⟩
  | add k v _ ih => exact inv_add k v ih
  | get k _ ih => exact inv_get k ih
  | remove k _ ih => exact inv_remove k ih
  | evict _ he ih => exact inv_evict ih he
  | clear _ _ => exact inv_clear _
  | setPolicy p _ ih => exact inv_same_st p _ ih
  | setHandler h _ ih => exact inv_same_st _ h ih

/-! Branch-level descriptions of the operations, used by the claim theorems. -/

theorem add_materialize [DecidableEq K] [Inhabited V] {c : Cache K V} (hst : c.st = none)
    (k : K) (v : V) :
    c.add k v = (⟨c.policy, c.handler, some ([], [])⟩ : Cache K V).add k v := by
  obtain ⟨pol, hb, st⟩ := c
  cases hst
  rfl

theorem add_update_branch [DecidableEq K] [Inhabited V] {c : Cache K V}
    {ll : List (K × V)} {m : List K} (hst : c.st = some (ll, m)) {k : K} (v : V)
    (hk : k ∈ m) :
    c.add k v = ({ c with st := some ((k, v) :: eraseEntry ll k, m) },
      if c.handler then
        [Event.added k (((lookupEntry ll k).getD (k, default)).2) v true]
      else []) := by
  obtain ⟨pol, hb, st⟩ := c
  cases hst
  simp [Cache.add, hk]

theorem add_insert_nopolicy [DecidableEq K] [Inhabited V] {c : Cache K V}
    {ll : List (K × V)} {m : List K} (hst : c.st = some (ll, m)) {k : K} (v : V)
    (hk : k ∉ m) (hp : c.policy = none) :
    c.add k v = ({ c with st := some ((k, v) :: ll, k :: m) },
      if c.handler then [Event.added k default v false] else []) := by
  obtain ⟨pol, hb, st⟩ := c
  cases hst
  cases hp
  simp [Cache.add, hk]

theorem add_insert_policy [DecidableEq K] [Inhabited V] {c : Cache K V}
    {ll : List (K × V)} {m : List K} (hst : c.st = some (ll, m)) {k : K} (v : V)
    (hk : k ∉ m) {p : K → V → Nat → Bool} (hp : c.policy = some p) :
    c.add k v =
      ({ c with st := some ((evictLoop p c.handler ((k, v) :: ll).length ((k, v) :: ll)
            (k :: m)).ll,
          (evictLoop p c.handler ((k, v) :: ll).length ((k, v) :: ll) (k :: m)).cache) },
       (if c.handler then [Event.added k default v false] else []) ++
         (evictLoop p c.handler ((k, v) :: ll).length ((k, v) :: ll) (k :: m)).events) := by
  obtain ⟨pol, hb, st⟩ := c
  cases hst
  cases hp
  simp [Cache.add, hk]

theorem add_policy [DecidableEq K] [Inhabited V] (c : Cache K V) (k : K) (v : V) :
    (c.add k v).1.policy = c.policy := by
  obtain ⟨pol, hb, st⟩ := c
  by_cases hk : k ∈ (st.getD ([], [])).2 <;> simp [Cache.add, hk]

theorem add_handler [DecidableEq K] [Inhabited V] (c : Cache K V) (k : K) (v : V) :
    (c.add k v).1.handler = c.handler := by
  obtain ⟨pol, hb, st⟩ := c
  by_cases hk : k ∈ (st.getD ([], [])).2 <;> simp [Cache.add, hk]

theorem get_hit_state [DecidableEq K] [Inhabited V] {c : Cache K V}
    {ll : List (K × V)} {m : List K} (hst : c.st = some (ll, m)) {k : K} (hk : k ∈ m) :
    c.get k = ((((lookupEntry ll k).getD (k, default)).2), true,
      { c with st := some (((lookupEntry ll k).getD (k, default)) :: eraseEntry ll k, m) }) := by
  obtain ⟨pol, hb, st⟩ := c
  cases hst
  simp [Cache.get, hk]

theorem get_miss [DecidableEq K] [Inhabited V] {c : Cache K V} {k : K}
    (hk : k ∉ c.indexKeys) : c.get k = (default, false, c) := by
  obtain ⟨pol, hb, st⟩ := c
  cases st with
  | none => rfl
  | some s =>
    obtain ⟨ll, m⟩ := s
    have hkm : k ∉ m := hk
    simp [Cache.get, hkm]

theorem valueOf_st_some [DecidableEq K] {c : Cache K V} {ll : List (K × V)} {m : List K}
    (hst : c.st = some (ll, m)) (k : K) :
    c.valueOf k = (lookupEntry ll k).map Prod.snd := by
  obtain ⟨pol, hb, st⟩ := c
  cases hst
  rfl

theorem lookupEntry_getD_snd [DecidableEq K] [Inhabited V] (ll : List (K × V)) (k : K) :
    ((lookupEntry ll k).getD (k, default)).2 =
      ((lookupEntry ll k).map Prod.snd).getD default := by
  cases h : lookupEntry ll k <;> rfl

theorem length_eraseEntry_of_mem [DecidableEq K] {ll : List (K × V)} {k : K}
    (hk : k ∈ ll.map Prod.fst) :
    (eraseEntry ll k).length = ll.length - 1 := by
  obtain ⟨e, he, hek⟩ := List.mem_map.mp hk
  exact List.length_eraseP_of_mem he (by simp [keyEq, hek])

theorem lookup_self [DecidableEq K] {ll : List (K × V)} (hnd : (ll.map Prod.fst).Nodup)
    {e : K × V} (he : e ∈ ll) : lookupEntry ll e.1 = some e := by
  induction ll with
  | nil => cases he
  | cons x t ih =>
    rcases List.mem_cons.mp he with rfl | ht
    · exact List.find?_cons_of_pos _ (by simp [keyEq])
    · have hnd' := List.nodup_cons.mp (show (x.1 :: t.map Prod.fst).Nodup from hnd)
      have hx1 : x.1 ∉ t.map Prod.fst := hnd'.1
      have he1 : e.1 ∈ t.map Prod.fst := List.mem_map.mpr ⟨e, ht, rfl⟩
      have hne : keyEq e.1 x = false := by
        simp only [keyEq, decide_eq_false_iff_not]
        intro hcontr
        exact hx1 (hcontr ▸ he1)
      rw [lookupEntry, List.find?_cons_of_neg _ (by simp [hne])]
      exact ih hnd'.2 ht

theorem add_evict_stable [DecidableEq K] [Inhabited V] (c : Cache K V) (k : K) (v : V)
    (hk : k ∉ c.indexKeys) :
    (c.add k v).1.evict = some (0, (c.add k v).1, []) := by
  obtain ⟨pol, hb, st⟩ := c
  have main : ∀ (ll : List (K × V)) (m : List K), k ∉ m →
      ((⟨pol, hb, some (ll, m)⟩ : Cache K V).add k v).1.evict =
        some (0, ((⟨pol, hb, some (ll, m)⟩ : Cache K V).add k v).1, []) := by
    intro ll m hkm
    cases pol with
    | none =>
      rw [add_insert_nopolicy rfl v hkm rfl]
      rfl
    | some p =>
      rw [add_insert_policy rfl v hkm rfl]
      obtain ⟨s, h1, h2, h3, h4, h5, h6⟩ :=
        evictLoop_spec p hb ((k, v) :: ll).length ((k, v) :: ll) (k :: m) (Nat.le_refl _)
      simp only [Cache.evict]
      rw [evictLoop_stopped h6]
  cases st with
  | none =>
    rw [add_materialize rfl k v]
    exact main [] [] (List.not_mem_nil k)
  | some s =>
    obtain ⟨ll, m⟩ := s
    exact main ll m hk

theorem add_lookup [DecidableEq K] [Inhabited V] (c : Cache K V) (k : K) (v : V)
    (hInv : Inv c) (hk : k ∈ (c.add k v).1.indexKeys) :
    lookupEntry (c.add k v).1.entries k = some (k, v) := by
  obtain ⟨pol, hb, st⟩ := c
  have main : ∀ (ll : List (K × V)) (m : List K), (ll.map Prod.fst).Perm m → m.Nodup →
      k ∈ ((⟨pol, hb, some (ll, m)⟩ : Cache K V).add k v).1.indexKeys →
      lookupEntry ((⟨pol, hb, some (ll, m)⟩ : Cache K V).add k v).1.entries k =
        some (k, v) := by
    intro ll m hperm hnd hk2
    by_cases hkm : k ∈ m
    · rw [add_update_branch rfl v hkm]
      exact List.find?_cons_of_pos _ (by simp [keyEq])
    · cases pol with
      | none =>
        rw [add_insert_nopolicy rfl v hkm rfl]
        exact List.find?_cons_of_pos _ (by simp [keyEq])
      | some p =>
        rw [add_insert_policy rfl v hkm rfl] at hk2 ⊢
        have hbase1 : (((k, v) :: ll).map Prod.fst).Perm (k :: m) := by
          simpa using hperm.cons k
        have hbase2 : (k :: m).Nodup := List.nodup_cons.mpr ⟨hkm, hnd⟩
        have hres := evictLoop_inv p hb ((k, v) :: ll).length ((k, v) :: ll) (k :: m)
          hbase1 hbase2
        obtain ⟨s, h1, h2, h3, h4, h5, h6⟩ :=
          evictLoop_spec p hb ((k, v) :: ll).length ((k, v) :: ll) (k :: m) (Nat.le_refl _)
        have hkll : k ∈ (evictLoop p hb ((k, v) :: ll).length ((k, v) :: ll)
            (k :: m)).ll.map Prod.fst := hres.1.mem_iff.mpr hk2
        cases hll : (evictLoop p hb ((k, v) :: ll).length ((k, v) :: ll) (k :: m)).ll with
        | nil =>
          rw [hll] at hkll
          cases hkll
        | cons x t =>
          rw [hll] at h1
          have hx : x = (k, v) := by
            have := h1
            rw [List.cons_append] at this
            injection this with hxx
            exact hxx.symm
          subst hx
          show lookupEntry ((k, v) :: t) k = some (k, v)
          exact List.find?_cons_of_pos _ (by simp [keyEq])
  cases st with
  | none =>
    rw [add_materialize rfl k v] at hk ⊢
    exact main [] [] (List.Perm.refl _) List.nodup_nil hk
  | some s =>
    obtain ⟨ll, m⟩ := s
    exact main ll m (inv_mk_some.mp hInv).1 (inv_mk_some.mp hInv).2 hk

/-! Claim theorems. -/

/-- C3: the claim says Evict is callable at any time without error,
returning 0 on an empty or unmaterialized cache regardless of policy.
The code violates this: with a configured policy and nil internal
structures (a cache that was Cleared, or a zero-value cache whose public
Policy field was set), Evict dereferences a nil list pointer and panics,
modelled here as the none result.  Evict''s own doc comment says the
process ends when the cache is empty, so the claim matches the intent and
the code is the slip. -/
theorem evict_after_clear_panics :
    (((new (some (maxCount 0)) : Cache Nat Nat)).clear).1.evict = none ∧
    ((⟨some (maxCount 0), false, none⟩ : Cache Nat Nat)).evict = none ∧
    ((⟨none, false, none⟩ : Cache Nat Nat)).evict =
      some (0, (⟨none, false, none⟩ : Cache Nat Nat), []) :=
  ⟨rfl, rfl, rfl⟩

/-- C10: on an insert, the Added notification is delivered before the
eviction sweep runs, and the sweep may evict the just-inserted entry:
with an always-true policy, a single Add on an empty cache fires
Added(k, zero, v, false) and then Removed(k, v) within the same call and
leaves the cache empty. -/
theorem add_insert_notify_then_evict {K V : Type} [DecidableEq K] [Inhabited V]
    (k : K) (v : V) :
    ((newWithHandler (some fun _ _ _ => true) true : Cache K V).add k v).2 =
      [Event.added k default v false, Event.removed k v] ∧
    ((newWithHandler (some fun _ _ _ => true) true : Cache K V).add k v).1.len = 0 :=
  ⟨rfl, rfl⟩

/-- C1 counterexample: the claim says the eviction protocol runs exactly
once after either branch of Add.  With the policy evict-iff-value-42,
Add(1, 0) then Add(1, 42) takes the update branch; the policy approves
the entry (1, 42) for eviction, yet it survives the Add (len stays 1),
and a direct Evict call immediately afterwards removes it (returning 1
and leaving len 0) — so the update branch never invoked the sweep. -/
theorem add_update_skips_evict_cex :
    (((new (some fun _ v _ => decide (v = 42)) : Cache Nat Nat).add 1 0).1.add 1 42).1.len
      = 1 ∧
    ((((new (some fun _ v _ => decide (v = 42)) : Cache Nat Nat).add 1 0).1.add 1
        42).1.evict.map (fun r => (r.1, r.2.1.len))) = some (1, 0) := by
  decide

/-- C1 amended: Add invokes the eviction protocol exactly once after the
insert branch (absent key) — synchronously within the same call, so the
resulting state is eviction-stable: an immediate further Evict removes
nothing.  The update branch (key already present) returns without
invoking the eviction protocol: it removes nothing (its event trace is
exactly the single Added notification and the entry count is unchanged),
so entries the policy approves for eviction can survive an updating
Add. -/
theorem add_evict_coupling [DecidableEq K] [Inhabited V] (c : Cache K V) (k : K) (v : V) :
    (k ∉ c.indexKeys → (c.add k v).1.evict = some (0, (c.add k v).1, [])) ∧
    (Inv c → k ∈ c.indexKeys →
      (c.add k v).1.len = c.len ∧
      (c.add k v).2 =
        (if c.handler then [Event.added k ((c.valueOf k).getD default) v true]
         else [])) := by
  constructor
  · exact add_evict_stable c k v
  · intro hInv hk
    obtain ⟨pol, hb, st⟩ := c
    cases st with
    | none => cases hk
    | some s =>
      obtain ⟨ll, m⟩ := s
      have hkm : k ∈ m := hk
      have hperm := (inv_mk_some.mp hInv).1
      have hkll : k ∈ ll.map Prod.fst := hperm.mem_iff.mpr hkm
      rw [add_update_branch rfl v hkm]
      constructor
      · show (eraseEntry ll k).length + 1 = ll.length
        have h1 := length_eraseEntry_of_mem (V := V) hkll
        have h2 : 1 ≤ ll.length := by
          rcases List.mem_map.mp hkll with ⟨e, he, -⟩
          exact List.length_pos.mpr (List.ne_nil_of_mem he)
        omega
      · rw [lookupEntry_getD_snd, valueOf_st_some rfl]

/-- C1 amended, witnessed at concrete inputs: an insert under MaxCount(1)
leaves an eviction-stable state, and an update on a present key keeps the
length and fires exactly the single updating Added notification. -/
theorem add_evict_coupling_witness :
    (((new (some (maxCount 1)) : Cache Nat Nat).add 2 20).1.evict =
      some (0, ((new (some (maxCount 1)) : Cache Nat Nat).add 2 20).1, [])) ∧
    ((((newWithHandler (some (maxCount 1)) true : Cache Nat Nat).add 1 10).1.add 1 99).1.len
        = ((newWithHandler (some (maxCount 1)) true : Cache Nat Nat).add 1 10).1.len ∧
      (((newWithHandler (some (maxCount 1)) true : Cache Nat Nat).add 1 10).1.add 1 99).2 =
        (if ((newWithHandler (some (maxCount 1)) true : Cache Nat Nat).add 1 10).1.handler
         then [Event.added 1
            ((((newWithHandler (some (maxCount 1)) true : Cache Nat Nat).add 1
              10).1.valueOf 1).getD default) 99 true]
         else [])) :=
  ⟨(add_evict_coupling _ 2 20).1 (by decide),
   (add_evict_coupling _ 1 99).2 (by decide) (by decide)⟩

/-- C2: with a configured policy and materialized internals, Evict removes
a suffix s of the ordering structure (the back-most entries): for each
removal the policy was asked with that entry''s key and value and the size
before that particular removal and answered true; the Removed notification
fires for each removed entry in removal order exactly when a handler is
configured; the sweep stops the first time the policy declines the current
back-most entry or the cache becomes empty; and the returned count is
exactly the number of entries removed.  With no policy configured, Evict
removes nothing and returns 0. -/
theorem evict_sweep_spec [DecidableEq K] (c : Cache K V) :
    (∀ (p : K → V → Nat → Bool) (ll : List (K × V)) (m : List K),
      c.policy = some p → c.st = some (ll, m) →
      ∃ (s ll2 : List (K × V)) (m2 : List K) (evs : List (Event K V)),
        c.evict = some (s.length, ⟨c.policy, c.handler, some (ll2, m2)⟩, evs) ∧
        ll = ll2 ++ s ∧
        m2 = s.foldr (fun e mm => mm.erase e.1) m ∧
        evs = (if c.handler then s.reverse.map (fun e => Event.removed e.1 e.2) else []) ∧
        (∀ j, (hj : j < s.length) → p s[j].1 s[j].2 (ll2.length + j + 1) = true) ∧
        (ll2 = [] ∨ ∃ e, ll2.getLast? = some e ∧ p e.1 e.2 ll2.length = false)) ∧
    (c.policy = none → c.evict = some (0, c, [])) := by
  constructor
  · intro p ll m hp hst
    obtain ⟨pol, hb, st⟩ := c
    cases hp
    cases hst
    obtain ⟨s, h1, h2, h3, h4, h5, h6⟩ := evictLoop_spec p hb ll.length ll m (Nat.le_refl _)
    refine ⟨s, (evictLoop p hb ll.length ll m).ll, (evictLoop p hb ll.length ll m).cache,
      (evictLoop p hb ll.length ll m).events, ?_, h1, h3, h4, h5, h6⟩
    simp only [Cache.evict]
    rw [h2]
  · intro hp
    obtain ⟨pol, hb, st⟩ := c
    cases hp
    rfl

/-- C2 witnessed at a concrete input: a cache holding only (1, 10) under
MaxCount(0) is fully swept. -/
theorem evict_sweep_spec_witness :
    ∃ (s ll2 : List (Nat × Nat)) (m2 : List Nat) (evs : List (Event Nat Nat)),
      (⟨some (maxCount 0), false, some ([(1, 10)], [1])⟩ : Cache Nat Nat).evict =
        some (s.length, (⟨some (maxCount 0), false, some (ll2, m2)⟩ : Cache Nat Nat),
          evs) ∧
      [(1, 10)] = ll2 ++ s ∧
      m2 = s.foldr (fun e mm => mm.erase e.1) [1] ∧
      evs = [] ∧
      (∀ j, (hj : j < s.length) → maxCount 0 s[j].1 s[j].2 (ll2.length + j + 1) = true) ∧
      (ll2 = [] ∨ ∃ e, ll2.getLast? = some e ∧ maxCount 0 e.1 e.2 ll2.length = false) :=
  (evict_sweep_spec _).1 (maxCount 0) [(1, 10)] [1] rfl rfl

theorem add_keys_drop [DecidableEq K] [Inhabited V] (c : Cache K V) (k : K) (v : V)
    (hInv : Inv c) :
    ∃ dropped, (c.add k v).1.keys ++ dropped = k :: c.keys.erase k := by
  obtain ⟨pol, hb, st⟩ := c
  have main : ∀ (ll : List (K × V)) (m : List K), (ll.map Prod.fst).Perm m → m.Nodup →
      ∃ dropped, ((⟨pol, hb, some (ll, m)⟩ : Cache K V).add k v).1.keys ++ dropped =
        k :: (ll.map Prod.fst).erase k := by
    intro ll m hperm hnd
    by_cases hkm : k ∈ m
    · refine ⟨[], ?_⟩
      rw [add_update_branch rfl v hkm]
      simp [Cache.keys, Cache.entries, map_fst_eraseEntry]
    · have hknot : k ∉ ll.map Prod.fst := fun hmem => hkm (hperm.mem_iff.mp hmem)
      have herase : (ll.map Prod.fst).erase k = ll.map Prod.fst :=
        List.erase_of_not_mem hknot
      cases pol with
      | none =>
        refine ⟨[], ?_⟩
        rw [add_insert_nopolicy rfl v hkm rfl]
        simp [Cache.keys, Cache.entries, herase]
      | some p =>
        obtain ⟨s, h1, h2, h3, h4, h5, h6⟩ :=
          evictLoop_spec p hb ((k, v) :: ll).length ((k, v) :: ll) (k :: m) (Nat.le_refl _)
        refine ⟨s.map Prod.fst, ?_⟩
        rw [add_insert_policy rfl v hkm rfl]
        show (evictLoop p hb ((k, v) :: ll).length ((k, v) :: ll) (k :: m)).ll.map Prod.fst
            ++ s.map Prod.fst = k :: (ll.map Prod.fst).erase k
        rw [herase, ← List.map_append, ← h1]
        rfl
  cases st with
  | none =>
    rw [add_materialize rfl k v]
    exact main [] [] (List.Perm.refl _) List.nodup_nil
  | some s =>
    obtain ⟨ll, m⟩ := s
    exact main ll m (inv_mk_some.mp hInv).1 (inv_mk_some.mp hInv).2

/-- C4: the ordering structure is kept in strict most-recently-touched
order: an Add makes k the front key and drops at most a back suffix
(eviction fallout), a successful Get moves k to the front and changes
nothing else, a missed Get changes nothing; and in the concrete
touch-on-read scenario Add(1); Add(2); Get(1); Add(3) under MaxCount(2),
key 2 is evicted while 1 survives at the back. -/
theorem recency_order_invariant {K V : Type} [DecidableEq K] [Inhabited V] :
    (∀ (c : Cache K V) (k : K) (v : V), Inv c →
      ∃ dropped, (c.add k v).1.keys ++ dropped = k :: c.keys.erase k) ∧
    (∀ (c : Cache K V) (k : K), (c.get k).2.1 = true →
      (c.get k).2.2.keys = k :: c.keys.erase k) ∧
    (∀ (c : Cache K V) (k : K), (c.get k).2.1 = false → (c.get k).2.2 = c) ∧
    ((((((new (some (maxCount 2)) : Cache Nat Nat).add 1 10).1.add 2 20).1.get
        1).2.2.add 3 30).1.keys = [3, 1] ∧
      ((((((new (some (maxCount 2)) : Cache Nat Nat).add 1 10).1.add 2 20).1.get
        1).2.2.add 3 30).1.get 2).2.1 = false ∧
      ((((((new (some (maxCount 2)) : Cache Nat Nat).add 1 10).1.add 2 20).1.get
        1).2.2.add 3 30).1.get 1).2.1 = true) := by
  refine ⟨fun c k v hInv => add_keys_drop c k v hInv, ?_, ?_, by decide⟩
  · intro c k hhit
    obtain ⟨pol, hb, st⟩ := c
    cases st with
    | none => simp [Cache.get] at hhit
    | some s =>
      obtain ⟨ll, m⟩ := s
      by_cases hk : k ∈ m
      · rw [get_hit_state rfl hk]
        simp [Cache.keys, Cache.entries, map_fst_eraseEntry, lookupEntry_getD_key]
      · simp [Cache.get, hk] at hhit
  · intro c k hmiss
    obtain ⟨pol, hb, st⟩ := c
    cases st with
    | none => rfl
    | some s =>
      obtain ⟨ll, m⟩ := s
      by_cases hk : k ∈ m
      · rw [get_hit_state rfl hk] at hmiss
        cases hmiss
      · simp [Cache.get, hk]

/-- C4 witnessed at concrete inputs: Add makes the key the new front
(with a possibly dropped suffix), a hit on key 1 moves it to the front,
and a miss on an absent key changes nothing. -/
theorem recency_order_invariant_witness :
    (∃ dropped,
      (((new none : Cache Nat Nat).add 1 10).1.add 2 20).1.keys ++ dropped =
        2 :: ((new none : Cache Nat Nat).add 1 10).1.keys.erase 2) ∧
    ((((new none : Cache Nat Nat).add 1 10).1.get 1).2.2.keys =
      1 :: ((new none : Cache Nat Nat).add 1 10).1.keys.erase 1) ∧
    ((((new none : Cache Nat Nat).add 1 10).1.get 7).2.2 =
      ((new none : Cache Nat Nat).add 1 10).1) :=
  ⟨recency_order_invariant.1 _ 2 20 (by decide),
   recency_order_invariant.2.1 _ 1 (by decide),
   recency_order_invariant.2.2.1 _ 7 (by decide)⟩

/-- C5: in every reachable state the index and the ordering structure are
in 1:1 correspondence: the list keys are a permutation of the index keys,
no key occurs twice in either, and Len equals the index size. -/
theorem index_order_correspondence [DecidableEq K] [Inhabited V] (c : Cache K V)
    (hr : Reachable c) :
    c.keys.Perm c.indexKeys ∧ c.indexKeys.Nodup ∧ c.keys.Nodup ∧
      c.len = c.indexKeys.length := by
  have hi := reachable_inv hr
  refine ⟨hi.1, hi.2, hi.1.nodup_iff.mpr hi.2, ?_⟩
  have hlen : c.keys.length = c.indexKeys.length := hi.1.length_eq
  obtain ⟨pol, hb, st⟩ := c
  cases st with
  | none => rfl
  | some s =>
    obtain ⟨ll, m⟩ := s
    simpa [Cache.len, Cache.keys, Cache.entries, Cache.indexKeys] using hlen

/-- C5 witnessed on a reachable state built through the public API. -/
theorem index_order_correspondence_witness :
    ((newWithHandler (some (maxCount 1)) false : Cache Nat Nat).add 1 10).1.keys.Perm
       ((newWithHandler (some (maxCount 1)) false : Cache Nat Nat).add 1 10).1.indexKeys ∧
    ((newWithHandler (some (maxCount 1)) false : Cache Nat Nat).add 1 10).1.indexKeys.Nodup ∧
    ((newWithHandler (some (maxCount 1)) false : Cache Nat Nat).add 1 10).1.keys.Nodup ∧
    ((newWithHandler (some (maxCount 1)) false : Cache Nat Nat).add 1 10).1.len =
      ((newWithHandler (some (maxCount 1)) false : Cache Nat Nat).add 1 10).1.indexKeys.length :=
  index_order_correspondence _ (Reachable.add 1 10 (Reachable.mk _ _))

/-- C6: on a hit Get returns the stored value with found true and moves
the entry to the front (front key is k, same entries up to reordering,
index and length unchanged); on a miss Get returns the zero value with
found false and the cache unchanged, invoking nothing. -/
theorem get_semantics [DecidableEq K] [Inhabited V] (c : Cache K V) (k : K) :
    (Inv c → k ∈ c.indexKeys →
      (c.get k).1 = (c.valueOf k).getD default ∧
      (c.get k).2.1 = true ∧
      (c.get k).2.2.keys = k :: c.keys.erase k ∧
      (c.get k).2.2.entries.Perm c.entries ∧
      (c.get k).2.2.indexKeys = c.indexKeys ∧
      (c.get k).2.2.len = c.len) ∧
    (k ∉ c.indexKeys → c.get k = (default, false, c)) := by
  constructor
  · intro hInv hk
    obtain ⟨pol, hb, st⟩ := c
    cases st with
    | none => cases hk
    | some s =>
      obtain ⟨ll, m⟩ := s
      have hkm : k ∈ m := hk
      have hperm := (inv_mk_some.mp hInv).1
      have hkll : k ∈ ll.map Prod.fst := hperm.mem_iff.mpr hkm
      obtain ⟨e, he⟩ := Option.isSome_iff_exists.mp ((lookupEntry_isSome ll k).mpr hkll)
      rw [get_hit_state rfl hkm]
      refine ⟨?_, rfl, ?_, ?_, rfl, ?_⟩
      · rw [lookupEntry_getD_snd, valueOf_st_some rfl]
      · simp [Cache.keys, Cache.entries, map_fst_eraseEntry, lookupEntry_getD_key]
      · show (((lookupEntry ll k).getD (k, default)) :: eraseEntry ll k).Perm ll
        rw [he]
        exact (perm_lookup_cons_eraseEntry he).symm
      · show (((lookupEntry ll k).getD (k, default)) :: eraseEntry ll k).length = ll.length
        have h1 := length_eraseEntry_of_mem (V := V) hkll
        have h2 : 1 ≤ ll.length := by
          rcases List.mem_map.mp hkll with ⟨e2, he2, -⟩
          exact List.length_pos.mpr (List.ne_nil_of_mem he2)
        simp only [List.length_cons, h1]
        omega
  · intro hk
    exact get_miss hk

/-- C6 witnessed at concrete inputs: a hit on the only stored key and a
miss on an absent key. -/
theorem get_semantics_witness :
    ((((new none : Cache Nat Nat).add 1 10).1.get 1).1 =
        ((((new none : Cache Nat Nat).add 1 10).1.valueOf 1).getD default) ∧
      (((new none : Cache Nat Nat).add 1 10).1.get 1).2.1 = true ∧
      (((new none : Cache Nat Nat).add 1 10).1.get 1).2.2.keys =
        1 :: ((new none : Cache Nat Nat).add 1 10).1.keys.erase 1 ∧
      (((new none : Cache Nat Nat).add 1 10).1.get 1).2.2.entries.Perm
        ((new none : Cache Nat Nat).add 1 10).1.entries ∧
      (((new none : Cache Nat Nat).add 1 10).1.get 1).2.2.indexKeys =
        ((new none : Cache Nat Nat).add 1 10).1.indexKeys ∧
      (((new none : Cache Nat Nat).add 1 10).1.get 1).2.2.len =
        ((new none : Cache Nat Nat).add 1 10).1.len) ∧
    (((new none : Cache Nat Nat).add 1 10).1.get 2 =
      (default, false, ((new none : Cache Nat Nat).add 1 10).1)) :=
  ⟨(get_semantics _ 1).1 (by decide) (by decide), (get_semantics _ 2).2 (by decide)⟩

theorem update_on_present [DecidableEq K] [Inhabited V] (c1 : Cache K V) (k : K)
    (v1 v2 : V) (hInv : Inv c1) (hh : c1.handler = true) (hk : k ∈ c1.indexKeys)
    (hl : lookupEntry c1.entries k = some (k, v1)) :
    (c1.add k v2).2 = [Event.added k v1 v2 true] ∧
    (c1.add k v2).1.len = c1.len ∧
    ((c1.add k v2).1.get k).1 = v2 ∧
    ((c1.add k v2).1.get k).2.1 = true := by
  obtain ⟨pol, hb, st⟩ := c1
  cases st with
  | none => cases hk
  | some s =>
    obtain ⟨ll, m⟩ := s
    have hkm : k ∈ m := hk
    have hbt : hb = true := hh
    subst hbt
    have hle : lookupEntry ll k = some (k, v1) := hl
    have hkll : k ∈ ll.map Prod.fst :=
      (lookupEntry_isSome ll k).mp (by simp [hle])
    have hlk : lookupEntry ((k, v2) :: eraseEntry ll k) k = some (k, v2) :=
      List.find?_cons_of_pos _ (by simp [keyEq])
    rw [add_update_branch rfl v2 hkm]
    refine ⟨?_, ?_, ?_, ?_⟩
    · simp [hle]
    · show (eraseEntry ll k).length + 1 = ll.length
      have h1 := length_eraseEntry_of_mem (V := V) hkll
      have h2 : 1 ≤ ll.length := by
        rcases List.mem_map.mp hkll with ⟨e2, he2, -⟩
        exact List.length_pos.mpr (List.ne_nil_of_mem he2)
      omega
    · rw [get_hit_state rfl hkm, hlk]
      rfl
    · rw [get_hit_state rfl hkm]

/-- C7 counterexample: the claim quantifies over every cache with a
configured handler, but with the MaxCount(0) policy the first Add''s own
eviction sweep removes k before the second Add, so the second Add takes
the insert branch: it fires Added(1, 0, 20, false) followed by
Removed(1, 20) — not a single Added with wasUpdate true — and the
subsequent Get misses. -/
theorem update_semantics_cex :
    ((((newWithHandler (some (maxCount 0)) true : Cache Nat Nat).add 1 10).1.add 1 20).2 =
      [Event.added 1 0 20 false, Event.removed 1 20]) ∧
    (((((newWithHandler (some (maxCount 0)) true : Cache Nat Nat).add 1 10).1.add 1
        20).1.get 1).2.1 = false) := by
  decide

/-- C7 amended: for every cache with a configured handler and key k such
that k is still present after the first Add (the policy did not evict it
during that call), Add(k, v1) followed by Add(k, v2) fires exactly one
Added call for the second Add, with wasUpdate true, oldValue v1 and
newValue v2; the second Add leaves Len unchanged; and Get(k) afterwards
returns (v2, true). -/
theorem update_semantics [DecidableEq K] [Inhabited V] (c : Cache K V) (k : K)
    (v1 v2 : V) (hInv : Inv c) (hh : c.handler = true)
    (hk : k ∈ (c.add k v1).1.indexKeys) :
    ((c.add k v1).1.add k v2).2 = [Event.added k v1 v2 true] ∧
    ((c.add k v1).1.add k v2).1.len = (c.add k v1).1.len ∧
    (((c.add k v1).1.add k v2).1.get k).1 = v2 ∧
    (((c.add k v1).1.add k v2).1.get k).2.1 = true :=
  update_on_present (c.add k v1).1 k v1 v2 (inv_add k v1 hInv)
    ((add_handler c k v1).trans hh) hk (add_lookup c k v1 hInv hk)

/-- C7 amended, witnessed at concrete inputs under MaxCount(2). -/
theorem update_semantics_witness :
    ((((newWithHandler (some (maxCount 2)) true : Cache Nat Nat).add 1 10).1.add 1 99).2 =
      [Event.added 1 10 99 true]) ∧
    ((((newWithHandler (some (maxCount 2)) true : Cache Nat Nat).add 1 10).1.add 1
        99).1.len =
      ((newWithHandler (some (maxCount 2)) true : Cache Nat Nat).add 1 10).1.len) ∧
    (((((newWithHandler (some (maxCount 2)) true : Cache Nat Nat).add 1 10).1.add 1
        99).1.get 1).1 = 99) ∧
    (((((newWithHandler (some (maxCount 2)) true : Cache Nat Nat).add 1 10).1.add 1
        99).1.get 1).2.1 = true) :=
  update_semantics _ 1 10 99 (by decide) rfl (by decide)

/-- C8: Remove on a present key detaches the entry from the ordering
structure, deletes the key from the index, fires Removed(k, value)
exactly when a handler is configured, and returns true; Remove on an
absent key returns false and changes nothing — a boolean outcome, never
an error. -/
theorem remove_semantics [DecidableEq K] [Inhabited V] (c : Cache K V) (k : K) :
    (Inv c → k ∈ c.indexKeys →
      (c.remove k).1 = true ∧
      (c.remove k).2.1.keys = c.keys.erase k ∧
      (c.remove k).2.1.indexKeys = c.indexKeys.erase k ∧
      (c.remove k).2.1.policy = c.policy ∧
      (c.remove k).2.1.handler = c.handler ∧
      (c.remove k).2.2 =
        (if c.handler then [Event.removed k ((c.valueOf k).getD default)] else [])) ∧
    (k ∉ c.indexKeys → c.remove k = (false, c, [])) := by
  constructor
  · intro hInv hk
    obtain ⟨pol, hb, st⟩ := c
    cases st with
    | none => cases hk
    | some s =>
      obtain ⟨ll, m⟩ := s
      have hkm : k ∈ m := hk
      have hperm := (inv_mk_some.mp hInv).1
      have hkll : k ∈ ll.map Prod.fst := hperm.mem_iff.mpr hkm
      obtain ⟨e, he⟩ := Option.isSome_iff_exists.mp ((lookupEntry_isSome ll k).mpr hkll)
      have hek : e.1 = k := lookupEntry_key he
      have hre : removeElement hb ll m (entryIdx ll k) =
          (eraseEntry ll k, m.erase k, if hb then [Event.removed k e.2] else []) := by
        rw [removeElement, getElem?_entryIdx, he]
        simp [eraseIdx_entryIdx, hek]
      have hrem : (⟨pol, hb, some (ll, m)⟩ : Cache K V).remove k =
          (true, ⟨pol, hb, some (eraseEntry ll k, m.erase k)⟩,
            if hb then [Event.removed k e.2] else []) := by
        simp [Cache.remove, hkm, hre]
      rw [hrem]
      refine ⟨rfl, ?_, rfl, rfl, rfl, ?_⟩
      · exact map_fst_eraseEntry ll k
      · simp [Cache.valueOf, Cache.entries, he]
  · intro hk
    obtain ⟨pol, hb, st⟩ := c
    cases st with
    | none => rfl
    | some s =>
      obtain ⟨ll, m⟩ := s
      have hkm : k ∉ m := hk
      simp [Cache.remove, hkm]

/-- C8 witnessed at concrete inputs: a present key and an absent key. -/
theorem remove_semantics_witness :
    ((((newWithHandler none true : Cache Nat Nat).add 1 10).1.remove 1).1 = true ∧
      (((newWithHandler none true : Cache Nat Nat).add 1 10).1.remove 1).2.1.keys =
        ((newWithHandler none true : Cache Nat Nat).add 1 10).1.keys.erase 1 ∧
      (((newWithHandler none true : Cache Nat Nat).add 1 10).1.remove 1).2.1.indexKeys =
        ((newWithHandler none true : Cache Nat Nat).add 1 10).1.indexKeys.erase 1 ∧
      (((newWithHandler none true : Cache Nat Nat).add 1 10).1.remove 1).2.1.policy =
        ((newWithHandler none true : Cache Nat Nat).add 1 10).1.policy ∧
      (((newWithHandler none true : Cache Nat Nat).add 1 10).1.remove 1).2.1.handler =
        ((newWithHandler none true : Cache Nat Nat).add 1 10).1.handler ∧
      (((newWithHandler none true : Cache Nat Nat).add 1 10).1.remove 1).2.2 =
        (if ((newWithHandler none true : Cache Nat Nat).add 1 10).1.handler then
          [Event.removed 1
            ((((newWithHandler none true : Cache Nat Nat).add 1 10).1.valueOf 1).getD
              default)]
         else [])) ∧
    (((newWithHandler none true : Cache Nat Nat).add 1 10).1.remove 2 =
      (false, ((newWithHandler none true : Cache Nat Nat).add 1 10).1, [])) :=
  ⟨(remove_semantics _ 1).1 (by decide) (by decide), (remove_semantics _ 2).2 (by decide)⟩

theorem clear_events_perm [DecidableEq K] [Inhabited V] (c : Cache K V)
    (hh : c.handler = true) (hInv : Inv c) :
    (c.clear).2.Perm (c.entries.map fun e => Event.removed e.1 e.2) := by
  obtain ⟨pol, hb, st⟩ := c
  have hbt : hb = true := hh
  subst hbt
  cases st with
  | none => exact List.Perm.refl _
  | some s =>
    obtain ⟨ll, m⟩ := s
    obtain ⟨hperm, hnd⟩ := inv_mk_some.mp hInv
    have hknd : (ll.map Prod.fst).Nodup := hperm.nodup_iff.mpr hnd
    show (m.map fun k =>
        Event.removed (((lookupEntry ll k).getD (k, default)).1)
          (((lookupEntry ll k).getD (k, default)).2)).Perm
      (ll.map fun e => Event.removed e.1 e.2)
    have h1 := (hperm.map fun k =>
      Event.removed (((lookupEntry ll k).getD (k, default)).1)
        (((lookupEntry ll k).getD (k, default)).2)).symm
    have h2 : ((ll.map Prod.fst).map fun k =>
        Event.removed (((lookupEntry ll k).getD (k, default)).1)
          (((lookupEntry ll k).getD (k, default)).2)) =
        ll.map fun e => Event.removed e.1 e.2 := by
      rw [List.map_map]
      refine List.map_congr_left ?_
      intro e he
      show Event.removed (((lookupEntry ll e.1).getD (e.1, default)).1)
          (((lookupEntry ll e.1).getD (e.1, default)).2) = Event.removed e.1 e.2
      rw [lookup_self hknd he]
      rfl
    rw [h2] at h1
    exact h1

/-- C9: Clear removes every entry (Len becomes 0, internals torn down);
with a configured handler it fires Removed(key, value) exactly once per
entry that was present, in some order (stated up to permutation, since Go
map iteration order is unspecified); with no handler it fires nothing;
and a subsequent Add behaves exactly as on a freshly constructed cache
with the same policy and handler, re-materializing the internals. -/
theorem clear_semantics [DecidableEq K] [Inhabited V] (c : Cache K V) :
    (c.clear).1.len = 0 ∧
    (c.handler = true → Inv c →
      (c.clear).2.Perm (c.entries.map fun e => Event.removed e.1 e.2)) ∧
    (c.handler = false → (c.clear).2 = []) ∧
    (∀ (k : K) (v : V),
      (c.clear).1.add k v = (newWithHandler c.policy c.handler : Cache K V).add k v) := by
  refine ⟨?_, fun hh hInv => clear_events_perm c hh hInv, ?_, ?_⟩
  · obtain ⟨pol, hb, st⟩ := c
    cases st with
    | none => rfl
    | some s =>
      obtain ⟨ll, m⟩ := s
      rfl
  · intro hh
    obtain ⟨pol, hb, st⟩ := c
    have hbf : hb = false := hh
    subst hbf
    cases st with
    | none => rfl
    | some s =>
      obtain ⟨ll, m⟩ := s
      rfl
  · intro k v
    obtain ⟨pol, hb, st⟩ := c
    cases st with
    | none => rfl
    | some s =>
      obtain ⟨ll, m⟩ := s
      rfl

/-- C9 witnessed on the spec scenario Add(1,2); Add(3,4); Add(5,6);
Clear(). -/
theorem clear_semantics_witness :
    (((((newWithHandler none true : Cache Nat Nat).add 1 2).1.add 3 4).1.add 5
        6).1.clear).1.len = 0 ∧
    (((((newWithHandler none true : Cache Nat Nat).add 1 2).1.add 3 4).1.add 5
        6).1.clear).2.Perm
      (((((newWithHandler none true : Cache Nat Nat).add 1 2).1.add 3 4).1.add 5
        6).1.entries.map fun e => Event.removed e.1 e.2) ∧
    (((((newWithHandler none true : Cache Nat Nat).add 1 2).1.add 3 4).1.add 5
        6).1.clear).1.add 7 8 =
      (newWithHandler
        ((((newWithHandler none true : Cache Nat Nat).add 1 2).1.add 3 4).1.add 5
          6).1.policy
        ((((newWithHandler none true : Cache Nat Nat).add 1 2).1.add 3 4).1.add 5
          6).1.handler : Cache Nat Nat).add 7 8 :=
  ⟨(clear_semantics _).1, (clear_semantics _).2.1 (by decide) (by decide),
   (clear_semantics _).2.2.2 7 8⟩

end PolicyLRU
